import Mathlib

/-!
Verification development for the `rss-genai` repository
(`app/api/rss/route.ts`, Next.js App Router).

The route fetches webpage content through the Jina Reader API (1 hour
cache), derives a SHA-256 content fingerprint, generates RSS 2.0 XML by
trying an ordered list of OpenAI models with fallback on 429/503 (7 day
cache keyed on url/content/hash), sanitizes the XML, and maps outcomes
to HTTP responses.

The definitions below are a shallow embedding of that file.  Strings
are handled as `List Char` where character-level scanning is needed so
that every definition is executable by the kernel.  The two external
collaborators (the Jina Reader and the OpenAI chat-completions service)
are abstracted as an `Env` of oracles, exactly at the interface the
route observes: the Jina call yields text or an error, the completion
call yields an optional message content or a thrown error carrying an
optional HTTP status.
-/

/-! ## Character utilities shared by the sanitizer embedding -/

/-- `[^<>]` of the text-node regex: a character that is neither `<` nor `>`. -/
def noAngle (c : Char) : Bool := c ≠ '<' && c ≠ '>'

/-- Hex digit class `[\da-fA-F]` from the entity lookahead regex. -/
def isHexDigitJS (c : Char) : Bool :=
  c.isDigit || ('a' ≤ c && c ≤ 'f') || ('A' ≤ c && c ≤ 'F')

/-- The five named-entity alternatives `amp; lt; gt; quot; apos;` of the
lookahead regex, as character lists. -/
def namedEnts : List (List Char) :=
  ["amp;".data, "lt;".data, "gt;".data, "quot;".data, "apos;".data]

/-- `(amp|lt|gt|quot|apos);` as a prefix of the characters after a `&`. -/
def namedEntityAfter (cs : List Char) : Bool := namedEnts.any fun p => p.isPrefixOf cs

/-- `#\d+;` as a prefix of the characters after a `&` (greedy digits,
then a `;`; backtracking cannot help because a shorter digit run is
followed by another digit). -/
def numericEntityAfter (cs : List Char) : Bool :=
  match cs with
  | '#' :: rest =>
    let ds := rest.takeWhile Char.isDigit
    !ds.isEmpty && ((rest.drop ds.length).head? == some ';')
  | _ => false

/-- `#x[\da-fA-F]+;` as a prefix of the characters after a `&`. -/
def hexEntityAfter (cs : List Char) : Bool :=
  match cs with
  | '#' :: 'x' :: r2 =>
    let hs := r2.takeWhile isHexDigitJS
    !hs.isEmpty && ((r2.drop hs.length).head? == some ';')
  | _ => false

/-- The lookahead `(amp|lt|gt|quot|apos|#\d+|#x[\da-fA-F]+);` of
`sanitizeXML`'s ampersand regex, applied to the characters following a
`&`: true when the `&` is already part of a recognized entity. -/
def entityAfterAmp (cs : List Char) : Bool :=
  namedEntityAfter cs || numericEntityAfter cs || hexEntityAfter cs

/-- `content.replace(/&(?!(amp|lt|gt|quot|apos|#\d+|#x[\da-fA-F]+);)/g, '&amp;')`:
every `&` that is not already the start of a recognized entity is
replaced by `&amp;`; the lookahead is zero-width, so scanning resumes
right after the `&` in both cases. -/
def escapeAmps : List Char → List Char
  | [] => []
  | '&' :: rest =>
    if entityAfterAmp rest then '&' :: escapeAmps rest
    else '&' :: 'a' :: 'm' :: 'p' :: ';' :: escapeAmps rest
  | c :: rest => c :: escapeAmps rest

/-- The characters of the entity `&amp;`. -/
def ampEnt : List Char := ['&', 'a', 'm', 'p', ';']

/-- `hay.includes(pat)` on character lists (JS `String.prototype.includes`). -/
def hasSub (pat : List Char) : List Char → Bool
  | [] => pat.isPrefixOf []
  | c :: rest => pat.isPrefixOf (c :: rest) || hasSub pat rest

/-- `s.includes(pat)` for strings. -/
def includesStr (s pat : String) : Bool := hasSub pat.data s.data

/-- The body of the text-node replacement callback of `sanitizeXML`:
`if (content.trim() === '' || content.includes('&amp;')) return match;`
otherwise escape the unescaped ampersands of the content. -/
def processContent (run : List Char) : List Char :=
  if run.all Char.isWhitespace then run
  else if hasSub ampEnt run then run
  else escapeAmps run

/-- Fuel-indexed scan implementing
`xml.replace(/>([^<>]+)</g, (match, content) => ...)`: at each `>` whose
following maximal `[^<>]+` run is nonempty and immediately followed by
`<`, the span is consumed and its content is passed through
`processContent`; otherwise the scanner advances one character.  The
fuel is only a structural-recursion device; `cs.length` fuel always
suffices because every step consumes at least one character. -/
def sanitizeFuel : Nat → List Char → List Char
  | _, [] => []
  | 0, cs => cs
  | fuel + 1, c :: rest =>
    if c = '>' ∧ (rest.drop (rest.takeWhile noAngle).length).head? = some '<' ∧
        rest.takeWhile noAngle ≠ [] then
      '>' :: (processContent (rest.takeWhile noAngle) ++
        '<' :: sanitizeFuel fuel ((rest.drop (rest.takeWhile noAngle).length).tail))
    else c :: sanitizeFuel fuel rest

/-- The text-node pass of `sanitizeXML` on character lists. -/
def sanitizeList (cs : List Char) : List Char := sanitizeFuel cs.length cs

/-- `function sanitizeXML(xml: string): string` from `route.ts`.  The
`try` block performs exactly the text-node replacement (the `catch`
branch is unreachable in this pure model); the helper functions
`escapeXMLText` / `escapeXMLAttribute` of the source are defined below
but are never invoked by `sanitizeXML`, mirroring the source. -/
def sanitizeXML (xml : String) : String := String.mk (sanitizeList xml.data)

/-- `escapeXMLText` from the source: defined inside `sanitizeXML` but
never called by it (dead code in `route.ts`). -/
def escapeXMLText (cs : List Char) : List Char :=
  ((escapeAmps cs).flatMap fun c =>
    if c = '<' then ['&', 'l', 't', ';'] else [c]).flatMap fun c =>
    if c = '>' then ['&', 'g', 't', ';'] else [c]

/-- `escapeXMLAttribute` from the source: also defined but never called
by `sanitizeXML` (dead code in `route.ts`). -/
def escapeXMLAttribute (cs : List Char) : List Char :=
  ((escapeXMLText cs).flatMap fun c =>
    if c = '"' then ['&', 'q', 'u', 'o', 't', ';'] else [c]).flatMap fun c =>
    if c = '\'' then ['&', 'a', 'p', 'o', 's', ';'] else [c]

/-! ## Markdown-fence stripping and trimming
(`xml.replace(/```xml/g, '').replace(/```/g, '').trim()`) -/

/-- Fuel-indexed global non-overlapping replacement of the literal
pattern `pat` by `rep`, scanning left to right (the semantics of a
global regex replace on a literal pattern).  `cs.length` fuel always
suffices. -/
def replaceFuel (pat rep : List Char) : Nat → List Char → List Char
  | _, [] => []
  | 0, cs => cs
  | f + 1, c :: rest =>
    if pat.isPrefixOf (c :: rest) ∧ pat ≠ [] then
      rep ++ replaceFuel pat rep f ((c :: rest).drop pat.length)
    else c :: replaceFuel pat rep f rest

/-- Replace every occurrence of `pat` by `rep` in `cs`. -/
def replaceAllL (pat rep cs : List Char) : List Char := replaceFuel pat rep cs.length cs

/-- `s.trim()`: drop whitespace from both ends. -/
def trimList (cs : List Char) : List Char :=
  ((cs.dropWhile Char.isWhitespace).reverse.dropWhile Char.isWhitespace).reverse

/-- The markdown cleanup applied to the raw completion text:
`xml.replace(/```xml/g, '').replace(/```/g, '').trim()`. -/
def stripFences (cs : List Char) : List Char :=
  trimList (replaceAllL "```".data [] (replaceAllL "```xml".data [] cs))

/-- The whole post-processing of a completion message applied by
`generateRSSFromContent` before validation: markdown cleanup followed
by `sanitizeXML`. -/
def postProcess (s : String) : String :=
  sanitizeXML (String.mk (stripFences s.data))

/-! ## SHA-256 (`createHash('sha256')`) over natural numbers mod 2^32 -/

/-- 2^32, the word modulus of SHA-256 arithmetic. -/
def pow32 : Nat := 4294967296

/-- Addition modulo 2^32. -/
def add32 (a b : Nat) : Nat := (a + b) % pow32

/-- Right rotation of a 32-bit word. -/
def rotr32 (x n : Nat) : Nat :=
  (((x % pow32) >>> n) ||| ((x % pow32) <<< (32 - n))) % pow32

/-- Bitwise complement of a 32-bit word. -/
def not32 (x : Nat) : Nat := (pow32 - 1) ^^^ (x % pow32)

/-- SHA-256 `Ch`. -/
def sha256Ch (x y z : Nat) : Nat := (x &&& y) ^^^ (not32 x &&& z)

/-- SHA-256 `Maj`. -/
def sha256Maj (x y z : Nat) : Nat := (x &&& y) ^^^ (x &&& z) ^^^ (y &&& z)

/-- SHA-256 Σ0. -/
def bigSigma0 (x : Nat) : Nat := rotr32 x 2 ^^^ rotr32 x 13 ^^^ rotr32 x 22

/-- SHA-256 Σ1. -/
def bigSigma1 (x : Nat) : Nat := rotr32 x 6 ^^^ rotr32 x 11 ^^^ rotr32 x 25

/-- SHA-256 σ0. -/
def smallSigma0 (x : Nat) : Nat := rotr32 x 7 ^^^ rotr32 x 18 ^^^ ((x % pow32) >>> 3)

/-- SHA-256 σ1. -/
def smallSigma1 (x : Nat) : Nat := rotr32 x 17 ^^^ rotr32 x 19 ^^^ ((x % pow32) >>> 10)

/-- The 64 SHA-256 round constants. -/
def sha256K : List Nat :=
  [1116352408, 1899447441, 3049323471, 3921009573, 961987163, 1508970993,
   2453635748, 2870763221, 3624381080, 310598401, 607225278, 1426881987,
   1925078388, 2162078206, 2614888103, 3248222580, 3835390401, 4022224774,
   264347078, 604807628, 770255983, 1249150122, 1555081692, 1996064986,
   2554220882, 2821834349, 2952996808, 3210313671, 3336571891, 3584528711,
   113926993, 338241895, 666307205, 773529912, 1294757372, 1396182291,
   1695183700, 1986661051, 2177026350, 2456956037, 2730485921, 2820302411,
   3259730800, 3345764771, 3516065817, 3600352804, 4094571909, 275423344,
   430227734, 506948616, 659060556, 883997877, 958139571, 1322822218,
   1537002063, 1747873779, 1955562222, 2024104815, 2227730452, 2361852424,
   2428436474, 2756734187, 3204031479, 3329325298]

/-- The SHA-256 initial hash value. -/
def sha256Init : List Nat :=
  [1779033703, 3144134277, 1013904242, 2773480762,
   1359893119, 2600822924, 528734635, 1541459225]

/-- SHA-256 message padding: append `0x80`, zero bytes to 56 mod 64,
then the bit length as an 8-byte big-endian integer. -/
def sha256Pad (bytes : List Nat) : List Nat :=
  let len := bytes.length
  let zeros := (119 - len % 64) % 64
  bytes ++ 0x80 :: List.replicate zeros 0 ++
    (List.range 8).map fun i => ((len * 8) >>> ((7 - i) * 8)) &&& 255

/-- Big-endian 4-byte groups to 32-bit words. -/
def bytesToWords : List Nat → List Nat
  | b0 :: b1 :: b2 :: b3 :: rest =>
    (b0 * 16777216 + b1 * 65536 + b2 * 256 + b3) :: bytesToWords rest
  | _ => []

/-- Split a padded message into 64-byte blocks. -/
def sha256Blocks (bytes : List Nat) : List (List Nat) :=
  (List.range (bytes.length / 64)).map fun i => (bytes.drop (64 * i)).take 64

/-- Extend 16 message words to the 64-word SHA-256 schedule. -/
def sha256Schedule (w16 : List Nat) : Array Nat :=
  (List.range 48).foldl
    (fun w _ =>
      let n := w.size
      w.push (add32 (add32 (smallSigma1 (w.getD (n - 2) 0)) (w.getD (n - 7) 0))
        (add32 (smallSigma0 (w.getD (n - 15) 0)) (w.getD (n - 16) 0))))
    w16.toArray

/-- One SHA-256 compression of a 16-word block into the running hash. -/
def sha256Compress (h : List Nat) (block : List Nat) : List Nat :=
  let w := sha256Schedule block
  let st := (List.range 64).foldl
    (fun (st : Nat × Nat × Nat × Nat × Nat × Nat × Nat × Nat) i =>
      let (a, b, c, d, e, f, g, hh) := st
      let t1 := add32 (add32 (add32 (add32 hh (bigSigma1 e)) (sha256Ch e f g))
        (sha256K.getD i 0)) (w.getD i 0)
      let t2 := add32 (bigSigma0 a) (sha256Maj a b c)
      (add32 t1 t2, a, b, c, add32 d t1, e, f, g))
    (h.getD 0 0, h.getD 1 0, h.getD 2 0, h.getD 3 0,
     h.getD 4 0, h.getD 5 0, h.getD 6 0, h.getD 7 0)
  let (a, b, c, d, e, f, g, hh) := st
  [add32 (h.getD 0 0) a, add32 (h.getD 1 0) b, add32 (h.getD 2 0) c, add32 (h.getD 3 0) d,
   add32 (h.getD 4 0) e, add32 (h.getD 5 0) f, add32 (h.getD 6 0) g, add32 (h.getD 7 0) hh]

/-- Lowercase hex digit. -/
def hexChar (n : Nat) : Char := "0123456789abcdef".data.getD n '0'

/-- A 32-bit word as 8 lowercase hex digits. -/
def word32Hex (w : Nat) : List Char :=
  (List.range 8).map fun i => hexChar ((w >>> ((7 - i) * 4)) &&& 15)

/-- `createHash('sha256').update(s).digest('hex')`: SHA-256 of the
UTF-8 bytes of `s`, rendered as lowercase hex. -/
def sha256hex (s : String) : String :=
  let bytes := s.toUTF8.toList.map UInt8.toNat
  let hs := (sha256Blocks (sha256Pad bytes)).foldl
    (fun h b => sha256Compress h (bytesToWords b)) sha256Init
  String.mk (hs.flatMap word32Hex)

/-! ## Content fingerprint (`getContentHash`) -/

/-- The string fed to the digest by `getContentHash`:
`` `${url}:${content}` ``. -/
def hashInput (url content : String) : String := url ++ ":" ++ content

/-- `getContentHash(url, content)` from `route.ts`. -/
def getContentHash (url content : String) : String := sha256hex (hashInput url content)

/-! ## Model candidates, completion outcomes and the fallback loop
(`generateRSSFromContent`) -/

/-- The ordered candidate list `["gpt-4o-mini", "gpt-4o", "gpt-3.5-turbo"]`. -/
def models : List String := ["gpt-4o-mini", "gpt-4o", "gpt-3.5-turbo"]

/-- Outcome of one `openai.chat.completions.create` call as observed by
the loop: either a resolved response whose
`choices[0]?.message?.content` is the optional string, or a thrown
error carrying `error.status` (absent for non-HTTP errors) and the
error message. -/
inductive CompletionOutcome where
  | ok (content : Option String)
  | err (status : Option Nat) (msg : String)
deriving DecidableEq

/-- The errors the generation loop can end with:
`apiError` is a thrown completions error, `invalidRSS` is
`new Error('Generated content is not valid RSS')`, and
`allModelsFailed` is `new Error('All models failed')`. -/
inductive GenError where
  | apiError (status : Option Nat) (msg : String)
  | invalidRSS
  | allModelsFailed
deriving DecidableEq

/-- `{ xml, modelUsed }` returned by `generateRSSFromContent`. -/
structure GenerationResult where
  xml : String
  modelUsed : String
deriving DecidableEq

/-- The structure validation:
`xml.includes('<rss') && xml.includes('<channel>')` (its negation makes
the loop record `invalidRSS` and continue). -/
def validRSS (xml : String) : Bool := includesStr xml "<rss" && includesStr xml "<channel>"

/-- The `for (const modelId of models)` loop of `generateRSSFromContent`
with the chat parameters already fixed, so a candidate is fully
described by `complete modelId`.  Returns the loop result together with
the list of candidates actually invoked (in order).  `le` is the
`lastError` accumulator (`null` at entry).  On a resolved response the
content is defaulted to `""`, cleaned, sanitized and validated: failure
records `invalidRSS` and continues.  A thrown 429/503 continues to the
next candidate; any other thrown error breaks the loop and the error is
rethrown; an exhausted list throws `lastError || 'All models failed'`. -/
def runModels (complete : String → CompletionOutcome) :
    List String → Option GenError → Except GenError GenerationResult × List String
  | [], le => (Except.error (le.getD GenError.allModelsFailed), [])
  | m :: rest, _le =>
    match complete m with
    | CompletionOutcome.ok content =>
      let xml := postProcess (content.getD "")
      if validRSS xml then (Except.ok ⟨xml, m⟩, [m])
      else
        let p := runModels complete rest (some GenError.invalidRSS)
        (p.1, m :: p.2)
    | CompletionOutcome.err status msg =>
      if status = some 429 ∨ status = some 503 then
        let p := runModels complete rest (some (GenError.apiError status msg))
        (p.1, m :: p.2)
      else (Except.error (GenError.apiError status msg), [m])

/-! ## Prompts -/

/-- The fixed system instruction of `generateRSSFromContent`; `dateStr`
stands for the interpolated `new Date().toUTCString()`. -/
def systemPrompt (dateStr : String) : String :=
  "You are an RSS feed generator. Parse the provided webpage content and output VALID RSS 2.0 XML.\n\nCRITICAL REQUIREMENTS:\n- Root: <rss version=\"2.0\"><channel>...\n- Channel: Include <title>, <link>, <description> for the feed itself\n- Items: Extract 5-10 recent article entries with these REQUIRED fields:\n  * <title>: Article title (exact text from source)\n  * <link>: Article permanent URL (must be absolute URL)\n  * <guid isPermaLink=\"true\">: MUST be the EXACT same URL as <link> - critical for deduplication\n  * <description>: Brief summary (1-2 sentences)\n  * <pubDate>: Publication date in RFC 822 format (e.g., \"Fri, 27 Dec 2024 00:00:00 GMT\")\n\nIMPORTANT RULES:\n1. The <guid> must use the article's permanent URL to prevent duplicate entries in RSS readers\n2. All URLs must be absolute (include https://domain.com prefix)\n3. Only include actual articles/posts, not navigation or other page elements\n4. If dates are not available, use today's date: " ++ dateStr ++ "\n5. CRITICAL: Properly escape special XML characters in ALL text content:\n   - Replace & with &amp; (except when already part of an entity like &amp; &lt; etc.)\n   - Replace < with &lt;\n   - Replace > with &gt;\n   - Replace \" with &quot; in attribute values\n   - Replace ' with &apos; in attribute values\n\nOutput: ONLY raw XML. No markdown blocks, no explanations, no ``` wrappers."

/-- The user message of the completion request. -/
def userContent (targetUrl pageContent : String) : String :=
  "Parse this webpage content from " ++ targetUrl ++
    " and generate an RSS feed:\n\n" ++ pageContent

/-- The Jina Reader URL `` `https://r.jina.ai/${url}` `` used by `fetchWithJina`. -/
def jinaUrl (url : String) : String := "https://r.jina.ai/" ++ url

/-! ## Caches (`unstable_cache`) and the request handler (`GET`) -/

/-- One cached value with its insertion time; an entry is fresh at time
`now` for ttl `ttl` iff `now < insertedAt + ttl` (the `revalidate`
window of `unstable_cache`). -/
structure CacheEntry (α : Type) where
  value : α
  insertedAt : Nat
deriving DecidableEq

/-- `revalidate: 3600` of `fetchWithJinaCache` (seconds). -/
def jinaTTL : Nat := 3600

/-- `revalidate: 604800` of `generateRSSFromContent` (seconds). -/
def rssTTL : Nat := 604800

/-- Lookup in an association-list cache: the entry for `k`, if present
and fresh at `now`. -/
def lookupEntry {κ α : Type} [DecidableEq κ]
    (l : List (κ × CacheEntry α)) (k : κ) (now ttl : Nat) : Option α :=
  match l.find? fun p => p.1 = k with
  | some p => if now < p.2.insertedAt + ttl then some p.2.value else none
  | none => none

/-- The process-wide state: the two `unstable_cache` stores.  The Jina
cache is keyed by the url argument; the generation cache is keyed by
the `(targetUrl, pageContent, contentHash)` argument tuple.  Writes are
whole-entry prepends (a newer entry shadows an older one). -/
structure SysState where
  jinaCache : List (String × CacheEntry String)
  rssCache : List ((String × String × String) × CacheEntry GenerationResult)
deriving DecidableEq

/-- The state with both caches empty. -/
def emptyState : SysState := ⟨[], []⟩

/-- The external collaborators as oracles: `jina url` is the result of
`fetchWithJina url` (text, or the thrown error message), and
`complete modelId sys user` is the outcome of one completions call with
the given model, system instruction and user message (temperature 0,
`max_tokens` 4096, seed 42 are fixed in the source and folded into the
oracle). -/
structure Env where
  jina : String → Except String String
  complete : String → String → String → CompletionOutcome

/-- `fetchWithJinaCache`: consult the 1-hour cache, otherwise perform
the fetch and (on success) store the result.  Also returns the number
of extraction-service calls made (0 or 1). -/
def jinaStep (env : Env) (now : Nat) (st : SysState) (url : String) :
    Except String String × SysState × Nat :=
  match lookupEntry st.jinaCache url now jinaTTL with
  | some content => (Except.ok content, st, 0)
  | none =>
    match env.jina url with
    | Except.ok content =>
      (Except.ok content, { st with jinaCache := (url, ⟨content, now⟩) :: st.jinaCache }, 1)
    | Except.error e => (Except.error e, st, 1)

/-- The cached `generateRSSFromContent`: consult the 7-day cache keyed
by the argument tuple, otherwise run the model loop and (on success)
store the result; a thrown error is not cached.  Also returns the
number of completion-service calls made. -/
def genStep (env : Env) (dateStr : String) (now : Nat) (st : SysState)
    (url content hash : String) :
    Except GenError GenerationResult × SysState × Nat :=
  match lookupEntry st.rssCache (url, content, hash) now rssTTL with
  | some r => (Except.ok r, st, 0)
  | none =>
    let p := runModels
      (fun m => env.complete m (systemPrompt dateStr) (userContent url content)) models none
    match p.1 with
    | Except.ok r =>
      (Except.ok r, { st with rssCache := ((url, content, hash), ⟨r, now⟩) :: st.rssCache },
        p.2.length)
    | Except.error e => (Except.error e, st, p.2.length)

/-- An HTTP response as far as the claims observe it: the status code,
the body, and the `X-Model-Used` header of the success path. -/
structure HttpResponse where
  status : Nat
  body : String
  modelUsedHeader : Option String
deriving DecidableEq

/-- The 400 usage message for a missing `url` parameter. -/
def usageMessage : String :=
  "Error: Missing \"url\" parameter. Usage: /api/rss?url=https://site.com"

/-- The 502 JSON body (`JSON.stringify` with 2-space indentation). -/
def fetchErrorBody (msg url : String) : String :=
  "\x7b\n  \"error\": \"Failed to fetch webpage content\",\n  \"message\": \"" ++ msg ++
    "\",\n  \"url\": \"" ++ url ++ "\"\n\x7d"

/-- The `message` of a generation error
(`error instanceof Error ? error.message : String(error)`). -/
def genErrorMsg : GenError → String
  | GenError.apiError _ msg => msg
  | GenError.invalidRSS => "Generated content is not valid RSS"
  | GenError.allModelsFailed => "All models failed"

/-- The `status` field of the 500 body
(`(error as { status?: number })?.status || 'unknown'`). -/
def genErrorStatus : GenError → String
  | GenError.apiError (some n) _ => toString n
  | _ => "\"unknown\""

/-- The 500 JSON body. -/
def genErrorBody (e : GenError) : String :=
  "\x7b\n  \"error\": \"Failed to generate feed\",\n  \"message\": \"" ++ genErrorMsg e ++
    "\",\n  \"status\": " ++ genErrorStatus e ++ "\n\x7d"

/-- The outcome of one `GET` request: the response, the updated caches,
and the number of extraction-service and completion-service calls made
while serving it. -/
structure HandleResult where
  response : HttpResponse
  state : SysState
  jinaCalls : Nat
  openaiCalls : Nat
deriving DecidableEq

/-- `export async function GET(request)` of `route.ts`, with the query
parameter already extracted (`urlParam = searchParams.get('url')`),
`dateStr` the rendering of the current UTC date used inside the system
prompt, and `now` the current time in seconds (used for cache
freshness).  Missing `url` short-circuits to 400; a Jina failure maps
to 502; a generation failure maps to 500; success returns the cached or
fresh XML with status 200. -/
def handleGET (env : Env) (dateStr : String) (now : Nat) (st : SysState)
    (urlParam : Option String) : HandleResult :=
  match urlParam with
  | none => ⟨⟨400, usageMessage, none⟩, st, 0, 0⟩
  | some url =>
    match jinaStep env now st url with
    | (Except.error e, st1, jc) => ⟨⟨502, fetchErrorBody e url, none⟩, st1, jc, 0⟩
    | (Except.ok content, st1, jc) =>
      let hash := getContentHash url content
      match genStep env dateStr now st1 url content hash with
      | (Except.ok r, st2, oc) => ⟨⟨200, r.xml, some r.modelUsed⟩, st2, jc, oc⟩
      | (Except.error e, st2, oc) => ⟨⟨500, genErrorBody e, none⟩, st2, jc, oc⟩

/-! ## Guid / link text extraction (used to state the guid-link claim) -/

/-- Fuel-indexed search for the first occurrence of `pat`: on success,
the text before the occurrence and the remainder after it. -/
def takeUntilFuel (pat : List Char) : Nat → List Char → Option (List Char × List Char)
  | _, [] => none
  | 0, _ => none
  | f + 1, c :: rest =>
    if pat.isPrefixOf (c :: rest) then some ([], (c :: rest).drop pat.length)
    else
      match takeUntilFuel pat f rest with
      | some (pre, post) => some (c :: pre, post)
      | none => none

/-- First-occurrence split of `cs` around `pat`. -/
def takeUntilL (pat cs : List Char) : Option (List Char × List Char) :=
  takeUntilFuel pat cs.length cs

/-- All texts enclosed between consecutive `openT …​ closeT` pairs,
scanned left to right. -/
def betweenFuel (openT closeT : List Char) : Nat → List Char → List (List Char)
  | 0, _ => []
  | f + 1, cs =>
    match takeUntilL openT cs with
    | none => []
    | some (_, rest1) =>
      match takeUntilL closeT rest1 with
      | some (txt, rest2) => txt :: betweenFuel openT closeT f rest2
      | none => []

/-- The text contents of the `<guid>` elements of `s`, in order. -/
def guidTexts (s : String) : List String :=
  (betweenFuel "<guid>".data "</guid>".data s.data.length s.data).map String.mk

/-- The text contents of the `<link>` elements of `s`, in order. -/
def linkTexts (s : String) : List String :=
  (betweenFuel "<link>".data "</link>".data s.data.length s.data).map String.mk

/-! ## Helper lemmas about lists and the sanitizer scan -/

theorem takeWhile_all_eq {p : Char → Bool} :
    ∀ {l : List Char}, (∀ x ∈ l, p x = true) → l.takeWhile p = l := by
  intro l h
  induction l with
  | nil => rfl
  | cons c rest ih =>
    simp only [List.takeWhile_cons, h c (List.mem_cons_self c rest), if_true]
    simp only [List.cons.injEq, true_and]
    exact ih fun x hx => h x (List.mem_cons_of_mem c hx)

theorem mem_of_takeWhile {p : Char → Bool} :
    ∀ {l : List Char} {a : Char}, a ∈ l.takeWhile p → p a = true := by
  intro l
  induction l with
  | nil => intro a h; simp [List.takeWhile] at h
  | cons c rest ih =>
    intro a h
    by_cases hc : p c = true
    · rw [List.takeWhile_cons, if_pos hc] at h
      rcases List.mem_cons.mp h with h1 | h2
      · exact h1 ▸ hc
      · exact ih h2
    · rw [List.takeWhile_cons, if_neg hc] at h
      exact absurd h (List.not_mem_nil a)

theorem takeWhile_append_stop {p : Char → Bool} {l : List Char} (y : Char) (m : List Char)
    (hl : ∀ x ∈ l, p x = true) (hy : p y = false) :
    (l ++ y :: m).takeWhile p = l := by
  induction l with
  | nil => simp [List.takeWhile_cons, hy]
  | cons c rest ih =>
    have hc := hl c (List.mem_cons_self c rest)
    simp only [List.cons_append, List.takeWhile_cons, hc, if_true, List.cons.injEq, true_and]
    exact ih fun x hx => hl x (List.mem_cons_of_mem c hx)

theorem takeWhile_nil_head {p : Char → Bool} {c : Char} {r : List Char}
    (h : (c :: r).takeWhile p = []) : p c = false := by
  by_cases hc : p c = true
  · rw [List.takeWhile_cons, if_pos hc] at h
    exact absurd h (List.cons_ne_nil c _)
  · exact Bool.eq_false_iff.mpr hc

theorem dropWhile_head_false {p : Char → Bool} :
    ∀ {l : List Char} {y : Char} {t : List Char}, l.dropWhile p = y :: t → p y = false := by
  intro l
  induction l with
  | nil => intro y t h; simp [List.dropWhile] at h
  | cons c rest ih =>
    intro y t h
    by_cases hc : p c = true
    · rw [List.dropWhile_cons, if_pos hc] at h
      exact ih h
    · rw [List.dropWhile_cons, if_neg hc] at h
      cases h
      exact Bool.eq_false_iff.mpr hc

/-- `sanitizeFuel` does not depend on the fuel once the fuel covers the
length of the input. -/
theorem sanitizeFuel_congr :
    ∀ (f g : Nat) (cs : List Char), cs.length ≤ f → cs.length ≤ g →
      sanitizeFuel f cs = sanitizeFuel g cs := by
  intro f
  induction f with
  | zero =>
    intro g cs hf _
    have : cs = [] := List.eq_nil_of_length_eq_zero (Nat.le_zero.mp hf)
    subst this
    cases g <;> rfl
  | succ f ih =>
    intro g cs hf hg
    cases cs with
    | nil => cases g <;> rfl
    | cons c rest =>
      cases g with
      | zero => exact absurd hg (by simp)
      | succ g =>
        simp only [sanitizeFuel]
        have hrest : rest.length ≤ f := by simp only [List.length_cons] at hf; omega
        have hrest' : rest.length ≤ g := by simp only [List.length_cons] at hg; omega
        by_cases hcond : c = '>' ∧
            (rest.drop (rest.takeWhile noAngle).length).head? = some '<' ∧
            rest.takeWhile noAngle ≠ []
        · rw [if_pos hcond, if_pos hcond]
          have hlen : ((rest.drop (rest.takeWhile noAngle).length).tail).length ≤ rest.length := by
            rw [List.length_tail, List.length_drop]
            omega
          rw [ih g _ (Nat.le_trans hlen hrest) (Nat.le_trans hlen hrest')]
        · rw [if_neg hcond, if_neg hcond, ih g rest hrest hrest']

/-- Unfolding: a head that is not `>` is copied. -/
theorem sanitizeList_cons_ne {c : Char} (rest : List Char) (h : c ≠ '>') :
    sanitizeList (c :: rest) = c :: sanitizeList rest := by
  show sanitizeFuel (rest.length + 1) (c :: rest) = c :: sanitizeList rest
  simp only [sanitizeFuel]
  rw [if_neg (by simp [h])]
  rfl

/-- Unfolding: a `>` at which the match condition fails is copied. -/
theorem sanitizeList_nomatch (rest : List Char)
    (h : ¬((rest.drop (rest.takeWhile noAngle).length).head? = some '<' ∧
      rest.takeWhile noAngle ≠ [])) :
    sanitizeList ('>' :: rest) = '>' :: sanitizeList rest := by
  show sanitizeFuel (rest.length + 1) ('>' :: rest) = '>' :: sanitizeList rest
  simp only [sanitizeFuel]
  rw [if_neg (by tauto)]
  rfl

/-- Unfolding: a full `>content<` span is consumed and its content
processed. -/
theorem sanitizeList_match (run tail : List Char) (hne : run ≠ [])
    (hall : ∀ x ∈ run, noAngle x = true) :
    sanitizeList ('>' :: (run ++ '<' :: tail)) =
      '>' :: (processContent run ++ '<' :: sanitizeList tail) := by
  have htw : (run ++ '<' :: tail).takeWhile noAngle = run :=
    takeWhile_append_stop '<' tail hall (by decide)
  have hdrop : (run ++ '<' :: tail).drop run.length = '<' :: tail := List.drop_left run _
  have hfuel : sanitizeFuel (run ++ '<' :: tail).length tail = sanitizeList tail := by
    apply sanitizeFuel_congr
    · simp [List.length_append]; omega
    · exact Nat.le_refl _
  show sanitizeFuel ((run ++ '<' :: tail).length + 1) ('>' :: (run ++ '<' :: tail)) = _
  simp only [sanitizeFuel, htw, hdrop, List.head?_cons, List.tail_cons, hfuel]
  simp [hne]

/-! ## Properties of the content escaping -/

theorem escapeAmps_cons_amp (rest : List Char) :
    escapeAmps ('&' :: rest) =
      if entityAfterAmp rest then '&' :: escapeAmps rest
      else '&' :: 'a' :: 'm' :: 'p' :: ';' :: escapeAmps rest := rfl

theorem escapeAmps_cons_ne {c : Char} (rest : List Char) (h : c ≠ '&') :
    escapeAmps (c :: rest) = c :: escapeAmps rest := by
  conv_lhs => rw [escapeAmps.eq_def]
  split
  · rename_i heq
    simp at heq
  · rename_i heq
    injection heq with h1 h2
    exact absurd h1 h
  · rename_i heq
    injection heq with h1 h2
    rw [h1, h2]

theorem escapeAmps_ne_nil {l : List Char} (h : l ≠ []) : escapeAmps l ≠ [] := by
  cases l with
  | nil => exact absurd rfl h
  | cons c rest =>
    by_cases hc : c = '&'
    · subst hc
      rw [escapeAmps_cons_amp]
      by_cases he : entityAfterAmp rest = true
      · rw [if_pos he]; exact List.cons_ne_nil _ _
      · rw [if_neg he]; exact List.cons_ne_nil _ _
    · rw [escapeAmps_cons_ne rest hc]
      exact List.cons_ne_nil _ _

theorem escapeAmps_all_noAngle {l : List Char} (h : ∀ x ∈ l, noAngle x = true) :
    ∀ x ∈ escapeAmps l, noAngle x = true := by
  induction l with
  | nil => intro x hx; simp [escapeAmps] at hx
  | cons c rest ih =>
    have hc := h c (List.mem_cons_self c rest)
    have hr : ∀ x ∈ rest, noAngle x = true := fun x hx => h x (List.mem_cons_of_mem c hx)
    by_cases hamp : c = '&'
    · subst hamp
      rw [escapeAmps_cons_amp]
      by_cases he : entityAfterAmp rest = true
      · rw [if_pos he]
        intro x hx
        rcases List.mem_cons.mp hx with h1 | h2
        · exact h1 ▸ hc
        · exact ih hr x h2
      · rw [if_neg he]
        intro x hx
        rcases List.mem_cons.mp hx with h1 | h2
        · exact h1 ▸ hc
        · rcases List.mem_cons.mp h2 with h3 | h4
          · subst h3; decide
          · rcases List.mem_cons.mp h4 with h5 | h6
            · subst h5; decide
            · rcases List.mem_cons.mp h6 with h7 | h8
              · subst h7; decide
              · rcases List.mem_cons.mp h8 with h9 | h10
                · subst h9; decide
                · exact ih hr x h10
    · rw [escapeAmps_cons_ne rest hamp]
      intro x hx
      rcases List.mem_cons.mp hx with h1 | h2
      · exact h1 ▸ hc
      · exact ih hr x h2

theorem hasSub_of_tail {pat : List Char} {c : Char} {t : List Char}
    (h : hasSub pat t = true) : hasSub pat (c :: t) = true := by
  simp only [hasSub, Bool.or_eq_true]
  exact Or.inr h

theorem hasSub_of_isPrefixOf {pat l : List Char} (h : pat.isPrefixOf l = true) :
    hasSub pat l = true := by
  cases l with
  | nil => simpa [hasSub] using h
  | cons c rest => simp only [hasSub, Bool.or_eq_true]; exact Or.inl h

/-- Escaping either leaves the content unchanged or introduces the
substring `&amp;`. -/
theorem escapeAmps_eq_or_hasSub :
    ∀ l : List Char, escapeAmps l = l ∨ hasSub ampEnt (escapeAmps l) = true := by
  intro l
  induction l with
  | nil => exact Or.inl rfl
  | cons c rest ih =>
    by_cases hamp : c = '&'
    · subst hamp
      rw [escapeAmps_cons_amp]
      by_cases he : entityAfterAmp rest = true
      · rw [if_pos he]
        rcases ih with h1 | h2
        · exact Or.inl (by rw [h1])
        · exact Or.inr (hasSub_of_tail h2)
      · rw [if_neg he]
        refine Or.inr (hasSub_of_isPrefixOf ?_)
        simp [ampEnt, List.isPrefixOf]
    · rw [escapeAmps_cons_ne rest hamp]
      rcases ih with h1 | h2
      · exact Or.inl (by rw [h1])
      · exact Or.inr (hasSub_of_tail h2)

theorem mem_of_hasSub {pat l : List Char} {a : Char} (ha : a ∈ pat)
    (h : hasSub pat l = true) : a ∈ l := by
  induction l with
  | nil =>
    cases pat with
    | nil => exact absurd ha (List.not_mem_nil a)
    | cons p ps => simp [hasSub, List.isPrefixOf] at h
  | cons c rest ih =>
    simp only [hasSub, Bool.or_eq_true] at h
    rcases h with h1 | h2
    · exact (List.IsPrefix.subset (List.isPrefixOf_iff_prefix.mp h1)) ha
    · exact List.mem_cons_of_mem c (ih h2)

theorem processContent_idem (run : List Char) :
    processContent (processContent run) = processContent run := by
  by_cases hws : run.all Char.isWhitespace = true
  · have h1 : processContent run = run := by simp [processContent, hws]
    rw [h1, h1]
  · by_cases hsub : hasSub ampEnt run = true
    · have h1 : processContent run = run := by simp [processContent, hws, hsub]
      rw [h1, h1]
    · have h1 : processContent run = escapeAmps run := by
        simp [processContent, hws, hsub]
      rcases escapeAmps_eq_or_hasSub run with h2 | h2
      · rw [h1, h2, h1, h2]
      · rw [h1]
        have hamp : '&' ∈ escapeAmps run := mem_of_hasSub (by decide) h2
        have hws2 : ¬(escapeAmps run).all Char.isWhitespace = true := by
          intro hall
          have := List.all_eq_true.mp hall '&' hamp
          simp [Char.isWhitespace] at this
        simp [processContent, hws2, h2]

theorem processContent_ne_nil {run : List Char} (h : run ≠ []) :
    processContent run ≠ [] := by
  unfold processContent
  by_cases hws : run.all Char.isWhitespace = true
  · simpa [hws] using h
  · by_cases hsub : hasSub ampEnt run = true
    · simpa [hws, hsub] using h
    · simpa [hws, hsub] using escapeAmps_ne_nil h

theorem processContent_all_noAngle {run : List Char} (h : ∀ x ∈ run, noAngle x = true) :
    ∀ x ∈ processContent run, noAngle x = true := by
  unfold processContent
  by_cases hws : run.all Char.isWhitespace = true
  · simpa [hws] using h
  · by_cases hsub : hasSub ampEnt run = true
    · simpa [hws, hsub] using h
    · simpa [hws, hsub] using escapeAmps_all_noAngle h

/-! ## Idempotence of the sanitizer -/

theorem sanitizeList_nil : sanitizeList [] = [] := rfl

/-- The scan preserves the first character of its input. -/
theorem sanitizeList_head (c : Char) (rest : List Char) :
    ∃ t, sanitizeList (c :: rest) = c :: t := by
  by_cases hc : c = '>'
  · subst hc
    by_cases hm : (rest.drop (rest.takeWhile noAngle).length).head? = some '<' ∧
        rest.takeWhile noAngle ≠ []
    · show ∃ t, sanitizeFuel (rest.length + 1) ('>' :: rest) = '>' :: t
      simp only [sanitizeFuel]
      rw [if_pos ⟨trivial, hm.1, hm.2⟩]
      exact ⟨_, rfl⟩
    · exact ⟨sanitizeList rest, sanitizeList_nomatch rest hm⟩
  · exact ⟨sanitizeList rest, sanitizeList_cons_ne rest hc⟩

/-- A prefix free of `>` is copied verbatim by the scan. -/
theorem sanitizeList_append_no_gt :
    ∀ {l : List Char}, (∀ x ∈ l, x ≠ '>') → ∀ m, sanitizeList (l ++ m) = l ++ sanitizeList m := by
  intro l
  induction l with
  | nil => intro _ m; simp
  | cons c rest ih =>
    intro h m
    have hc : c ≠ '>' := h c (List.mem_cons_self c rest)
    rw [List.cons_append, sanitizeList_cons_ne _ hc,
      ih (fun x hx => h x (List.mem_cons_of_mem c hx)) m, List.cons_append]

/-- Dropping the length of the `takeWhile` prefix is `dropWhile`. -/
theorem drop_takeWhile_length (p : Char → Bool) :
    ∀ l : List Char, l.drop (l.takeWhile p).length = l.dropWhile p := by
  intro l
  induction l with
  | nil => rfl
  | cons c rest ih =>
    by_cases hc : p c = true
    · rw [List.takeWhile_cons, if_pos hc, List.dropWhile_cons, if_pos hc, List.length_cons,
        List.drop_succ_cons, ih]
    · rw [List.takeWhile_cons, if_neg hc, List.dropWhile_cons, if_neg hc]
      rfl

/-- `sanitize(sanitize(x)) = sanitize(x)` on character lists, by strong
induction on the length. -/
theorem sanitizeList_idem_bounded :
    ∀ (n : Nat) (cs : List Char), cs.length ≤ n →
      sanitizeList (sanitizeList cs) = sanitizeList cs := by
  intro n
  induction n with
  | zero =>
    intro cs h
    have : cs = [] := List.eq_nil_of_length_eq_zero (Nat.le_zero.mp h)
    subst this
    rfl
  | succ n ih =>
    intro cs hlen
    cases cs with
    | nil => rfl
    | cons c rest =>
      have hrest : rest.length ≤ n := by simp only [List.length_cons] at hlen; omega
      have hdtw := drop_takeWhile_length noAngle rest
      by_cases hc : c = '>'
      case neg =>
        rw [sanitizeList_cons_ne rest hc, sanitizeList_cons_ne _ hc, ih rest hrest]
      case pos =>
        subst hc
        have hall : ∀ x ∈ rest.takeWhile noAngle, noAngle x = true :=
          fun x hx => mem_of_takeWhile hx
        have hallne : ∀ x ∈ rest.takeWhile noAngle, x ≠ '>' := by
          intro x hx
          have hx2 := hall x hx
          simp only [noAngle, Bool.and_eq_true, decide_eq_true_eq] at hx2
          exact hx2.2
        by_cases hm : (rest.drop (rest.takeWhile noAngle).length).head? = some '<' ∧
            rest.takeWhile noAngle ≠ []
        · -- a `>content<` span is consumed; the rewritten span is consumed
          -- again by the second pass and `processContent` is idempotent
          rw [hdtw] at hm
          obtain ⟨tail, htail⟩ : ∃ tail, rest.dropWhile noAngle = '<' :: tail := by
            cases hsufc : rest.dropWhile noAngle with
            | nil => rw [hsufc] at hm; simp at hm
            | cons y t =>
              rw [hsufc] at hm
              simp only [List.head?_cons, Option.some.injEq] at hm
              exact ⟨t, by rw [hm.1]⟩
          have hne : rest.takeWhile noAngle ≠ [] := hm.2
          have hrest_eq : rest = rest.takeWhile noAngle ++ '<' :: tail := by
            conv_lhs => rw [← List.takeWhile_append_dropWhile (p := noAngle) (l := rest)]
            rw [htail]
          have htlen : tail.length ≤ n := by
            have hl := congrArg List.length hrest_eq
            simp only [List.length_append, List.length_cons] at hl
            omega
          rw [hrest_eq, sanitizeList_match _ tail hne hall,
            sanitizeList_match (processContent (rest.takeWhile noAngle)) (sanitizeList tail)
              (processContent_ne_nil hne) (processContent_all_noAngle hall),
            processContent_idem, ih tail htlen]
        · -- the `>` is copied; no span can appear at it in the second pass
          rw [sanitizeList_nomatch rest hm]
          have hnomatch2 :
              ¬(((sanitizeList rest).drop
                  ((sanitizeList rest).takeWhile noAngle).length).head? = some '<' ∧
                (sanitizeList rest).takeWhile noAngle ≠ []) := by
            by_cases hrun : rest.takeWhile noAngle = []
            · -- the char right after `>` (if any) is `<` or `>`, and it
              -- is preserved as the head of the sanitized rest
              cases rest with
              | nil => simp [sanitizeList_nil]
              | cons r0 r1 =>
                have hr0 : noAngle r0 = false := takeWhile_nil_head hrun
                obtain ⟨t, ht⟩ := sanitizeList_head r0 r1
                rw [ht]
                simp [List.takeWhile_cons, hr0]
            · -- the run is followed by `>` or the end of input, and
              -- that layout is preserved by the scan
              have hm1 : ¬(rest.dropWhile noAngle).head? = some '<' :=
                fun hh => hm ⟨by rw [hdtw]; exact hh, hrun⟩
              cases hsufc : rest.dropWhile noAngle with
              | nil =>
                have hrest_eq : rest = rest.takeWhile noAngle := by
                  conv_lhs => rw [← List.takeWhile_append_dropWhile (p := noAngle) (l := rest)]
                  rw [hsufc, List.append_nil]
                have hsan : sanitizeList rest = rest := by
                  conv_lhs => rw [hrest_eq]
                  rw [show rest.takeWhile noAngle = rest.takeWhile noAngle ++ ([] : List Char)
                      from (List.append_nil _).symm,
                    sanitizeList_append_no_gt hallne [], sanitizeList_nil, List.append_nil]
                  exact hrest_eq.symm
                rw [hsan, hdtw, hsufc]
                simp
              | cons y t =>
                have hy : noAngle y = false := dropWhile_head_false hsufc
                have hy' : y = '>' := by
                  rcases (show y = '<' ∨ y = '>' by
                    by_contra hcon
                    push_neg at hcon
                    simp [noAngle, hcon.1, hcon.2] at hy) with h | h
                  · rw [hsufc] at hm1
                    simp [h] at hm1
                  · exact h
                subst hy'
                have hrest_eq : rest = rest.takeWhile noAngle ++ '>' :: t := by
                  conv_lhs => rw [← List.takeWhile_append_dropWhile (p := noAngle) (l := rest)]
                  rw [hsufc]
                obtain ⟨t', ht'⟩ := sanitizeList_head '>' t
                have hsan : sanitizeList rest = rest.takeWhile noAngle ++ '>' :: t' := by
                  conv_lhs => rw [hrest_eq]
                  rw [sanitizeList_append_no_gt hallne ('>' :: t), ht']
                rw [hsan, takeWhile_append_stop '>' t' hall (by decide), List.drop_left]
                simp
          rw [sanitizeList_nomatch (sanitizeList rest) hnomatch2, ih rest hrest]

/-- Idempotence of `sanitizeXML`. -/
theorem sanitizeXML_idem (x : String) : sanitizeXML (sanitizeXML x) = sanitizeXML x := by
  show String.mk (sanitizeList (String.mk (sanitizeList x.data)).data) = _
  have hdata : (String.mk (sanitizeList x.data)).data = sanitizeList x.data := rfl
  rw [hdata, sanitizeList_idem_bounded x.data.length x.data (Nat.le_refl _)]
  rfl

/-! ## The sanitizer never rewrites angle brackets -/

/-- A `<` or `>` character. -/
def isAngleB (c : Char) : Bool := c = '<' || c = '>'

theorem filter_isAngleB_nil_of_noAngle {l : List Char} (h : ∀ x ∈ l, noAngle x = true) :
    l.filter isAngleB = [] := by
  rw [List.filter_eq_nil_iff]
  intro a ha
  have h2 := h a ha
  simp only [noAngle, Bool.and_eq_true, decide_eq_true_eq] at h2
  simp [isAngleB, h2.1, h2.2]

/-- The scan preserves the subsequence of `<` / `>` characters: tag
punctuation is untouched and angle brackets are never escaped, inserted
or deleted. -/
theorem sanitizeList_filter_angle_bounded :
    ∀ (n : Nat) (cs : List Char), cs.length ≤ n →
      (sanitizeList cs).filter isAngleB = cs.filter isAngleB := by
  intro n
  induction n with
  | zero =>
    intro cs h
    have : cs = [] := List.eq_nil_of_length_eq_zero (Nat.le_zero.mp h)
    subst this
    rfl
  | succ n ih =>
    intro cs hlen
    cases cs with
    | nil => rfl
    | cons c rest =>
      have hrest : rest.length ≤ n := by simp only [List.length_cons] at hlen; omega
      by_cases hc : c = '>'
      case neg =>
        rw [sanitizeList_cons_ne rest hc, List.filter_cons, List.filter_cons, ih rest hrest]
      case pos =>
        subst hc
        by_cases hm : (rest.drop (rest.takeWhile noAngle).length).head? = some '<' ∧
            rest.takeWhile noAngle ≠ []
        · have hdtw := drop_takeWhile_length noAngle rest
          rw [hdtw] at hm
          obtain ⟨tail, htail⟩ : ∃ tail, rest.dropWhile noAngle = '<' :: tail := by
            cases hsufc : rest.dropWhile noAngle with
            | nil => rw [hsufc] at hm; simp at hm
            | cons y t =>
              rw [hsufc] at hm
              simp only [List.head?_cons, Option.some.injEq] at hm
              exact ⟨t, by rw [hm.1]⟩
          have hall : ∀ x ∈ rest.takeWhile noAngle, noAngle x = true :=
            fun x hx => mem_of_takeWhile hx
          have hne : rest.takeWhile noAngle ≠ [] := hm.2
          have hrest_eq : rest = rest.takeWhile noAngle ++ '<' :: tail := by
            conv_lhs => rw [← List.takeWhile_append_dropWhile (p := noAngle) (l := rest)]
            rw [htail]
          have htlen : tail.length ≤ n := by
            have hl := congrArg List.length hrest_eq
            simp only [List.length_append, List.length_cons] at hl
            omega
          rw [hrest_eq, sanitizeList_match _ tail hne hall]
          rw [List.filter_cons, List.filter_append, List.filter_cons,
            List.filter_cons, List.filter_append, List.filter_cons,
            filter_isAngleB_nil_of_noAngle hall,
            filter_isAngleB_nil_of_noAngle (processContent_all_noAngle hall),
            ih tail htlen]
        · rw [sanitizeList_nomatch rest hm, List.filter_cons, List.filter_cons, ih rest hrest]

/-! ## Every ampersand in escaped output starts a recognized entity -/

/-- Every `&` of the list is immediately followed by a recognized
entity tail (so re-escaping would have nothing to do). -/
def allAmpsEscaped : List Char → Bool
  | [] => true
  | '&' :: rest => entityAfterAmp rest && allAmpsEscaped rest
  | _ :: rest => allAmpsEscaped rest

theorem allAmpsEscaped_cons_ne {c : Char} (rest : List Char) (h : c ≠ '&') :
    allAmpsEscaped (c :: rest) = allAmpsEscaped rest := by
  conv_lhs => rw [allAmpsEscaped.eq_def]
  split
  · rename_i heq
    simp at heq
  · rename_i heq
    injection heq with h1 h2
    exact absurd h1 h
  · rename_i heq
    injection heq with h1 h2
    rw [h2]

theorem allAmpsEscaped_of_no_amp {l : List Char} (h : '&' ∉ l) : allAmpsEscaped l = true := by
  induction l with
  | nil => rfl
  | cons c rest ih =>
    have hc : c ≠ '&' := fun hcc => h (hcc ▸ List.mem_cons_self c rest)
    rw [allAmpsEscaped_cons_ne rest hc]
    exact ih fun hr => h (List.mem_cons_of_mem c hr)

/-- `escapeAmps` copies a prefix that contains no `&`. -/
theorem escapeAmps_append_no_amp :
    ∀ {l : List Char}, (∀ x ∈ l, x ≠ '&') → ∀ m, escapeAmps (l ++ m) = l ++ escapeAmps m := by
  intro l
  induction l with
  | nil => intro _ m; rfl
  | cons c rest ih =>
    intro h m
    have hc : c ≠ '&' := h c (List.mem_cons_self c rest)
    rw [List.cons_append, escapeAmps_cons_ne _ hc,
      ih (fun x hx => h x (List.mem_cons_of_mem c hx)) m, List.cons_append]

theorem no_amp_of_takeWhile_digit {x : Char} {l : List Char}
    (hx : x ∈ l.takeWhile Char.isDigit) : x ≠ '&' := by
  have := mem_of_takeWhile (p := Char.isDigit) hx
  intro hcon
  subst hcon
  simp [Char.isDigit] at this

theorem no_amp_of_takeWhile_hex {x : Char} {l : List Char}
    (hx : x ∈ l.takeWhile isHexDigitJS) : x ≠ '&' := by
  have := mem_of_takeWhile (p := isHexDigitJS) hx
  intro hcon
  subst hcon
  simp [isHexDigitJS, Char.isDigit] at this

theorem numericEntityAfter_build (ds : List Char) (hne : ds ≠ [])
    (hall : ∀ x ∈ ds, Char.isDigit x = true) (m : List Char) :
    numericEntityAfter ('#' :: (ds ++ ';' :: m)) = true := by
  simp only [numericEntityAfter]
  rw [takeWhile_append_stop ';' m hall (by decide), List.drop_left]
  simp [hne]

theorem hexEntityAfter_build (hs : List Char) (hne : hs ≠ [])
    (hall : ∀ x ∈ hs, isHexDigitJS x = true) (m : List Char) :
    hexEntityAfter ('#' :: ('x' :: (hs ++ ';' :: m))) = true := by
  simp only [hexEntityAfter]
  rw [takeWhile_append_stop ';' m hall (by decide), List.drop_left]
  simp [hne]

/-- Every recognized entity tail is an `&`-free prefix followed by an
arbitrary remainder, and the prefix keeps the lookahead true whatever
follows it. -/
theorem entityAfterAmp_decomp {rest : List Char} (h : entityAfterAmp rest = true) :
    ∃ pre post, rest = pre ++ post ∧ (∀ x ∈ pre, x ≠ '&') ∧
      ∀ m, entityAfterAmp (pre ++ m) = true := by
  simp only [entityAfterAmp, Bool.or_eq_true] at h
  rcases h with (hnamed | hnum) | hhex
  · -- one of the named entities is a prefix
    simp only [namedEntityAfter, List.any_eq_true] at hnamed
    obtain ⟨p, hp, hpre⟩ := hnamed
    obtain ⟨post, hpost⟩ := List.isPrefixOf_iff_prefix.mp hpre
    refine ⟨p, post, hpost.symm, ?_, ?_⟩
    · have hn : ∀ q ∈ namedEnts, ∀ x ∈ q, x ≠ '&' := by decide
      exact hn p hp
    · intro m
      have hself : p.isPrefixOf (p ++ m) = true :=
        List.isPrefixOf_iff_prefix.mpr (List.prefix_append p m)
      simp only [entityAfterAmp, namedEntityAfter, List.any_eq_true, Bool.or_eq_true]
      exact Or.inl (Or.inl ⟨p, hp, hself⟩)
  · -- numeric character reference `#\d+;`
    obtain ⟨rest2, hrest2⟩ : ∃ r, rest = '#' :: r := by
      rw [numericEntityAfter.eq_def] at hnum
      split at hnum
      · exact ⟨_, rfl⟩
      · exact absurd hnum (by simp)
    subst hrest2
    simp only [numericEntityAfter, Bool.and_eq_true, beq_iff_eq] at hnum
    have hds : rest2.takeWhile Char.isDigit ≠ [] := by
      intro hcon
      rw [hcon] at hnum
      simp at hnum
    have hsemi := hnum.2
    rw [drop_takeWhile_length Char.isDigit rest2] at hsemi
    obtain ⟨r3, hr3⟩ : ∃ r3, rest2.dropWhile Char.isDigit = ';' :: r3 := by
      cases hdw : rest2.dropWhile Char.isDigit with
      | nil => rw [hdw] at hsemi; simp at hsemi
      | cons y t =>
        rw [hdw] at hsemi
        simp only [List.head?_cons, Option.some.injEq] at hsemi
        exact ⟨t, by rw [hsemi]⟩
    have hall : ∀ x ∈ rest2.takeWhile Char.isDigit, Char.isDigit x = true :=
      fun x hx => mem_of_takeWhile hx
    have hdecomp : rest2 = rest2.takeWhile Char.isDigit ++ ';' :: r3 := by
      conv_lhs => rw [← List.takeWhile_append_dropWhile (p := Char.isDigit) (l := rest2)]
      rw [hr3]
    refine ⟨('#' :: rest2.takeWhile Char.isDigit) ++ [';'], r3, ?_, ?_, ?_⟩
    · conv_lhs => rw [hdecomp]
      simp
    · intro x hx
      rcases List.mem_append.mp hx with h2 | h4
      · rcases List.mem_cons.mp h2 with h1 | h3
        · subst h1; decide
        · exact no_amp_of_takeWhile_digit h3
      · rcases List.mem_cons.mp h4 with h5 | h6
        · subst h5; decide
        · exact absurd h6 (List.not_mem_nil x)
    · intro m
      have hpm : (('#' :: rest2.takeWhile Char.isDigit) ++ [';']) ++ m =
          '#' :: (rest2.takeWhile Char.isDigit ++ ';' :: m) := by simp
      rw [hpm]
      simp only [entityAfterAmp, Bool.or_eq_true]
      exact Or.inl (Or.inr (numericEntityAfter_build _ hds hall m))
  · -- hexadecimal character reference `#x[\da-fA-F]+;`
    obtain ⟨r2, hr2⟩ : ∃ r, rest = '#' :: 'x' :: r := by
      rw [hexEntityAfter.eq_def] at hhex
      split at hhex
      · exact ⟨_, rfl⟩
      · exact absurd hhex (by simp)
    subst hr2
    simp only [hexEntityAfter, Bool.and_eq_true, beq_iff_eq] at hhex
    have hhs : r2.takeWhile isHexDigitJS ≠ [] := by
      intro hcon
      rw [hcon] at hhex
      simp at hhex
    have hsemi := hhex.2
    rw [drop_takeWhile_length isHexDigitJS r2] at hsemi
    obtain ⟨r3, hr3⟩ : ∃ r3, r2.dropWhile isHexDigitJS = ';' :: r3 := by
      cases hdw : r2.dropWhile isHexDigitJS with
      | nil => rw [hdw] at hsemi; simp at hsemi
      | cons y t =>
        rw [hdw] at hsemi
        simp only [List.head?_cons, Option.some.injEq] at hsemi
        exact ⟨t, by rw [hsemi]⟩
    have hall : ∀ x ∈ r2.takeWhile isHexDigitJS, isHexDigitJS x = true :=
      fun x hx => mem_of_takeWhile hx
    have hdecomp : r2 = r2.takeWhile isHexDigitJS ++ ';' :: r3 := by
      conv_lhs => rw [← List.takeWhile_append_dropWhile (p := isHexDigitJS) (l := r2)]
      rw [hr3]
    refine ⟨('#' :: ('x' :: r2.takeWhile isHexDigitJS)) ++ [';'], r3, ?_, ?_, ?_⟩
    · conv_lhs => rw [hdecomp]
      simp
    · intro x hx
      rcases List.mem_append.mp hx with h2 | h4
      · rcases List.mem_cons.mp h2 with h1 | h3
        · subst h1; decide
        · rcases List.mem_cons.mp h3 with h1 | h5
          · subst h1; decide
          · exact no_amp_of_takeWhile_hex h5
      · rcases List.mem_cons.mp h4 with h5 | h6
        · subst h5; decide
        · exact absurd h6 (List.not_mem_nil x)
    · intro m
      have hpm : (('#' :: ('x' :: r2.takeWhile isHexDigitJS)) ++ [';']) ++ m =
          '#' :: ('x' :: (r2.takeWhile isHexDigitJS ++ ';' :: m)) := by simp
      rw [hpm]
      simp only [entityAfterAmp, Bool.or_eq_true]
      exact Or.inr (hexEntityAfter_build _ hhs hall m)

/-- A recognized entity tail survives `escapeAmps` of the rest. -/
theorem entityAfterAmp_escapeAmps {rest : List Char} (h : entityAfterAmp rest = true) :
    entityAfterAmp (escapeAmps rest) = true := by
  obtain ⟨pre, post, heq, hnoamp, hforall⟩ := entityAfterAmp_decomp h
  rw [heq, escapeAmps_append_no_amp hnoamp post]
  exact hforall (escapeAmps post)

/-- Every ampersand of `escapeAmps` output starts a recognized entity. -/
theorem allAmpsEscaped_escapeAmps : ∀ l : List Char, allAmpsEscaped (escapeAmps l) = true := by
  intro l
  induction l with
  | nil => rfl
  | cons c rest ih =>
    by_cases hc : c = '&'
    · subst hc
      rw [escapeAmps_cons_amp]
      by_cases he : entityAfterAmp rest = true
      · rw [if_pos he]
        show (entityAfterAmp (escapeAmps rest) && allAmpsEscaped (escapeAmps rest)) = true
        rw [entityAfterAmp_escapeAmps he, ih]
        rfl
      · rw [if_neg he]
        show (entityAfterAmp ('a' :: 'm' :: 'p' :: ';' :: escapeAmps rest) &&
          allAmpsEscaped ('a' :: 'm' :: 'p' :: ';' :: escapeAmps rest)) = true
        have h1 : entityAfterAmp ('a' :: 'm' :: 'p' :: ';' :: escapeAmps rest) = true := by
          simp only [entityAfterAmp, namedEntityAfter, List.any_eq_true, Bool.or_eq_true]
          refine Or.inl (Or.inl ⟨"amp;".data, by simp [namedEnts], ?_⟩)
          simp [List.isPrefixOf]
        have h2 : allAmpsEscaped ('a' :: 'm' :: 'p' :: ';' :: escapeAmps rest) = true := by
          rw [allAmpsEscaped_cons_ne _ (by decide), allAmpsEscaped_cons_ne _ (by decide),
            allAmpsEscaped_cons_ne _ (by decide), allAmpsEscaped_cons_ne _ (by decide), ih]
        rw [h1, h2]
        rfl
    · rw [escapeAmps_cons_ne rest hc, allAmpsEscaped_cons_ne _ hc, ih]

/-! ## Properties of the fallback loop -/

/-- Unfolding `runModels` at a resolved completion. -/
theorem runModels_cons_ok (complete : String → CompletionOutcome) (m : String)
    (rest : List String) (le : Option GenError) (content : Option String)
    (h : complete m = CompletionOutcome.ok content) :
    runModels complete (m :: rest) le =
      (if validRSS (postProcess (content.getD "")) then
        (Except.ok ⟨postProcess (content.getD ""), m⟩, [m])
      else
        ((runModels complete rest (some GenError.invalidRSS)).1,
          m :: (runModels complete rest (some GenError.invalidRSS)).2)) := by
  simp only [runModels, h]

/-- Unfolding `runModels` at a thrown completion error. -/
theorem runModels_cons_err (complete : String → CompletionOutcome) (m : String)
    (rest : List String) (le : Option GenError) (status : Option Nat) (msg : String)
    (h : complete m = CompletionOutcome.err status msg) :
    runModels complete (m :: rest) le =
      (if status = some 429 ∨ status = some 503 then
        ((runModels complete rest (some (GenError.apiError status msg))).1,
          m :: (runModels complete rest (some (GenError.apiError status msg))).2)
      else (Except.error (GenError.apiError status msg), [m])) := by
  simp only [runModels, h]

/-- Any successful loop result passed the `<rss` / `<channel>`
validation. -/
theorem runModels_ok_valid (complete : String → CompletionOutcome) :
    ∀ (ms : List String) (le : Option GenError) (res : GenerationResult) (inv : List String),
      runModels complete ms le = (Except.ok res, inv) → validRSS res.xml = true := by
  intro ms
  induction ms with
  | nil =>
    intro le res inv h
    simp only [runModels, Prod.mk.injEq] at h
    exact absurd h.1 (by simp)
  | cons m rest ih =>
    intro le res inv h
    cases hcm : complete m with
    | ok content =>
      rw [runModels_cons_ok complete m rest le content hcm] at h
      by_cases hv : validRSS (postProcess (content.getD "")) = true
      · rw [if_pos hv] at h
        simp only [Prod.mk.injEq, Except.ok.injEq] at h
        rw [← h.1]
        exact hv
      · rw [if_neg hv] at h
        simp only [Prod.mk.injEq] at h
        exact ih (some GenError.invalidRSS) res _ (Prod.ext h.1 rfl)
    | err status msg =>
      rw [runModels_cons_err complete m rest le status msg hcm] at h
      by_cases hs : status = some 429 ∨ status = some 503
      · rw [if_pos hs] at h
        simp only [Prod.mk.injEq] at h
        exact ih (some (GenError.apiError status msg)) res _ (Prod.ext h.1 rfl)
      · rw [if_neg hs] at h
        simp only [Prod.mk.injEq] at h
        exact absurd h.1 (by simp)

/-! ## Claim theorems -/

/-- Claim C2: the generator tries the ordered candidate list in
sequence; with candidates `[A, B, C]`, if `A` fails with a rate-limit
(429) or service-unavailable (503) status and `B` resolves to a
validation-passing response, the result carries `B`'s (post-processed)
XML with `modelUsed = B`, the invoked candidates are exactly `[A, B]`,
and `C` is never invoked. -/
theorem claim2_fallback_ordering (complete : String → CompletionOutcome)
    (A B C : String) (le : Option GenError) (status : Option Nat) (msg sB : String)
    (hA : complete A = CompletionOutcome.err status msg)
    (hs : status = some 429 ∨ status = some 503)
    (hB : complete B = CompletionOutcome.ok (some sB))
    (hv : validRSS (postProcess sB) = true) :
    runModels complete [A, B, C] le =
      (Except.ok ⟨postProcess sB, B⟩, [A, B]) := by
  rw [runModels_cons_err complete A [B, C] le status msg hA, if_pos hs,
    runModels_cons_ok complete B [C] _ (some sB) hB]
  simp [hv]

/-- Witness for C2 at a concrete environment. -/
theorem claim2_fallback_ordering_witness :
    runModels
      (fun m => if m = "gpt-4o-mini" then CompletionOutcome.err (some 429) "rate limited"
        else CompletionOutcome.ok (some "<rss version=\"2.0\"><channel></channel></rss>"))
      ["gpt-4o-mini", "gpt-4o", "gpt-3.5-turbo"] none =
      (Except.ok ⟨"<rss version=\"2.0\"><channel></channel></rss>", "gpt-4o"⟩,
        ["gpt-4o-mini", "gpt-4o"]) := by
  have h := claim2_fallback_ordering
    (fun m => if m = "gpt-4o-mini" then CompletionOutcome.err (some 429) "rate limited"
      else CompletionOutcome.ok (some "<rss version=\"2.0\"><channel></channel></rss>"))
    "gpt-4o-mini" "gpt-4o" "gpt-3.5-turbo" none (some 429) "rate limited"
    "<rss version=\"2.0\"><channel></channel></rss>"
    (by decide) (Or.inl rfl) (by decide) (by decide)
  rw [h]
  have hpp : postProcess "<rss version=\"2.0\"><channel></channel></rss>" =
      "<rss version=\"2.0\"><channel></channel></rss>" := by decide
  rw [hpp]

/-- Claim C3: a candidate failure with any thrown error other than a
429 or 503 status stops the loop at once — no later candidate is
invoked and the error is rethrown — and the endpoint maps such a
generation failure to a 500 response after a single completion call;
thrown 429/503 failures instead advance to the next candidate. -/
theorem claim3_nonretryable_short_circuit (complete : String → CompletionOutcome)
    (A : String) (rest : List String) (le : Option GenError)
    (status : Option Nat) (msg : String)
    (hA : complete A = CompletionOutcome.err status msg)
    (h429 : status ≠ some 429) (h503 : status ≠ some 503) :
    runModels complete (A :: rest) le = (Except.error (GenError.apiError status msg), [A]) ∧
    (∀ env : Env, ∀ dateStr : String, ∀ now : Nat, ∀ url content : String,
      env.jina url = Except.ok content →
      (∀ m : String,
        env.complete m (systemPrompt dateStr) (userContent url content) =
          CompletionOutcome.err status msg) →
      (handleGET env dateStr now emptyState (some url)).response.status = 500 ∧
      (handleGET env dateStr now emptyState (some url)).openaiCalls = 1) := by
  have hmain : ∀ (rest' : List String) (le' : Option GenError)
      (complete' : String → CompletionOutcome) (A' : String),
      complete' A' = CompletionOutcome.err status msg →
      runModels complete' (A' :: rest') le' =
        (Except.error (GenError.apiError status msg), [A']) := by
    intro rest' le' complete' A' hA'
    rw [runModels_cons_err complete' A' rest' le' status msg hA',
      if_neg (by tauto)]
  refine ⟨hmain rest le complete A hA, ?_⟩
  intro env dateStr now url content hj hc
  have hrun := hmain ["gpt-4o", "gpt-3.5-turbo"] none
    (fun m => env.complete m (systemPrompt dateStr) (userContent url content))
    "gpt-4o-mini" (hc "gpt-4o-mini")
  have hjina : jinaStep env now emptyState url = (Except.ok content, ⟨[(url, ⟨content, now⟩)], []⟩, 1) := by
    simp only [jinaStep, lookupEntry, List.find?, emptyState, hj]
  have hgen2 : genStep env dateStr now ⟨[(url, ⟨content, now⟩)], []⟩ url content
      (getContentHash url content) =
      (Except.error (GenError.apiError status msg), ⟨[(url, ⟨content, now⟩)], []⟩, 1) := by
    simp only [genStep, lookupEntry, List.find?]
    rw [show models = ["gpt-4o-mini", "gpt-4o", "gpt-3.5-turbo"] from rfl, hrun]
    rfl
  simp only [handleGET, hjina, hgen2]
  exact ⟨trivial, trivial⟩

/-- Witness for C3 at a concrete environment. -/
theorem claim3_nonretryable_short_circuit_witness :
    runModels (fun _ => CompletionOutcome.err (some 400) "bad request")
      ["gpt-4o-mini", "gpt-4o"] none =
      (Except.error (GenError.apiError (some 400) "bad request"), ["gpt-4o-mini"]) ∧
    (handleGET
        ⟨fun _ => Except.ok "page", fun _ _ _ => CompletionOutcome.err (some 400) "bad request"⟩
        "D" 0 emptyState (some "https://x")).response.status = 500 := by
  have h := claim3_nonretryable_short_circuit
    (fun _ => CompletionOutcome.err (some 400) "bad request")
    "gpt-4o-mini" ["gpt-4o"] none (some 400) "bad request"
    rfl (by decide) (by decide)
  exact ⟨h.1, (h.2 ⟨fun _ => Except.ok "page",
    fun _ _ _ => CompletionOutcome.err (some 400) "bad request"⟩
    "D" 0 "https://x" "page" rfl (fun _ => rfl)).1⟩

/-- Claim C9: a `GET` with no `url` query parameter returns status 400
with the plain-text usage message as body, leaves both caches
untouched, and performs zero extraction-service and zero
completion-service calls. -/
theorem claim9_missing_param (env : Env) (dateStr : String) (now : Nat) (st : SysState) :
    handleGET env dateStr now st none = ⟨⟨400, usageMessage, none⟩, st, 0, 0⟩ := rfl

/-- Claim C10: a resolved completion whose message content is absent or
empty is treated as the empty string, fails the `<rss`/`<channel>`
validation, records the validation error and continues with the next
candidate; consequently no successful loop result ever carries empty
XML (every success passed validation). -/
theorem claim10_empty_completion (complete : String → CompletionOutcome)
    (m : String) (rest : List String) (le : Option GenError)
    (h : complete m = CompletionOutcome.ok none ∨
      complete m = CompletionOutcome.ok (some "")) :
    runModels complete (m :: rest) le =
      ((runModels complete rest (some GenError.invalidRSS)).1,
        m :: (runModels complete rest (some GenError.invalidRSS)).2) ∧
    (∀ (res : GenerationResult) (inv : List String),
      runModels complete (m :: rest) le = (Except.ok res, inv) →
      validRSS res.xml = true ∧ res.xml ≠ "") := by
  have hempty : runModels complete (m :: rest) le =
      ((runModels complete rest (some GenError.invalidRSS)).1,
        m :: (runModels complete rest (some GenError.invalidRSS)).2) := by
    rcases h with h | h
    · rw [runModels_cons_ok complete m rest le none h]
      rw [if_neg (by decide)]
    · rw [runModels_cons_ok complete m rest le (some "") h]
      rw [if_neg (by decide)]
  refine ⟨hempty, ?_⟩
  intro res inv hok
  have hv := runModels_ok_valid complete (m :: rest) le res inv hok
  refine ⟨hv, ?_⟩
  intro hcon
  rw [hcon] at hv
  exact absurd hv (by decide)

/-- Witness for C10 at a concrete environment. -/
theorem claim10_empty_completion_witness :
    runModels (fun _ => CompletionOutcome.ok none) ["gpt-4o-mini"] none =
      ((runModels (fun _ => CompletionOutcome.ok none) [] (some GenError.invalidRSS)).1,
        "gpt-4o-mini" ::
          (runModels (fun _ => CompletionOutcome.ok none) [] (some GenError.invalidRSS)).2) :=
  (claim10_empty_completion (fun _ => CompletionOutcome.ok none)
    "gpt-4o-mini" [] none (Or.inl rfl)).1

/-- Claim C1: with both caches empty, a first request for `url` (whose
extraction yields `content` and whose first candidate resolves to a
validation-passing response) performs exactly one extraction-service
call and one completion-service call and returns 200; a second request
for the same URL with unchanged content within the cache TTLs performs
zero calls to either service and returns byte-identical XML. -/
theorem claim1_cache_determinism (env : Env) (dateStr : String) (t1 t2 : Nat)
    (url content s : String)
    (hj : env.jina url = Except.ok content)
    (hc : env.complete "gpt-4o-mini" (systemPrompt dateStr) (userContent url content) =
      CompletionOutcome.ok (some s))
    (hv : validRSS (postProcess s) = true)
    (ht : t2 < t1 + jinaTTL) :
    (handleGET env dateStr t1 emptyState (some url)).jinaCalls = 1 ∧
    (handleGET env dateStr t1 emptyState (some url)).openaiCalls = 1 ∧
    (handleGET env dateStr t1 emptyState (some url)).response.status = 200 ∧
    (handleGET env dateStr t2 (handleGET env dateStr t1 emptyState (some url)).state
      (some url)).jinaCalls = 0 ∧
    (handleGET env dateStr t2 (handleGET env dateStr t1 emptyState (some url)).state
      (some url)).openaiCalls = 0 ∧
    (handleGET env dateStr t2 (handleGET env dateStr t1 emptyState (some url)).state
      (some url)).response.status = 200 ∧
    (handleGET env dateStr t2 (handleGET env dateStr t1 emptyState (some url)).state
      (some url)).response.body =
      (handleGET env dateStr t1 emptyState (some url)).response.body := by
  have ht' : t2 < t1 + rssTTL := by
    have h1 := ht
    simp only [jinaTTL] at h1
    simp only [rssTTL]
    omega
  have hrun : runModels
      (fun m => env.complete m (systemPrompt dateStr) (userContent url content)) models none =
      (Except.ok ⟨postProcess s, "gpt-4o-mini"⟩, ["gpt-4o-mini"]) := by
    rw [show models = ["gpt-4o-mini", "gpt-4o", "gpt-3.5-turbo"] from rfl,
      runModels_cons_ok _ "gpt-4o-mini" ["gpt-4o", "gpt-3.5-turbo"] none (some s) hc]
    rw [show (some s).getD "" = s from rfl, if_pos hv]
  have hjina1 : jinaStep env t1 emptyState url =
      (Except.ok content, ⟨[(url, ⟨content, t1⟩)], []⟩, 1) := by
    simp only [jinaStep, lookupEntry, List.find?, emptyState, hj]
  have hgen1 : genStep env dateStr t1 ⟨[(url, ⟨content, t1⟩)], []⟩ url content
      (getContentHash url content) =
      (Except.ok ⟨postProcess s, "gpt-4o-mini"⟩,
        ⟨[(url, ⟨content, t1⟩)],
          [((url, content, getContentHash url content),
            ⟨⟨postProcess s, "gpt-4o-mini"⟩, t1⟩)]⟩, 1) := by
    simp only [genStep, lookupEntry, List.find?]
    rw [hrun]
    rfl
  have h1 : handleGET env dateStr t1 emptyState (some url) =
      ⟨⟨200, postProcess s, some "gpt-4o-mini"⟩,
        ⟨[(url, ⟨content, t1⟩)],
          [((url, content, getContentHash url content),
            ⟨⟨postProcess s, "gpt-4o-mini"⟩, t1⟩)]⟩, 1, 1⟩ := by
    simp only [handleGET, hjina1, hgen1]
  have hjina2 : jinaStep env t2
      (⟨[(url, ⟨content, t1⟩)],
        [((url, content, getContentHash url content),
          ⟨⟨postProcess s, "gpt-4o-mini"⟩, t1⟩)]⟩ : SysState) url =
      (Except.ok content,
        ⟨[(url, ⟨content, t1⟩)],
          [((url, content, getContentHash url content),
            ⟨⟨postProcess s, "gpt-4o-mini"⟩, t1⟩)]⟩, 0) := by
    simp only [jinaStep, lookupEntry, List.find?]
    simp [ht]
  have hgen2 : genStep env dateStr t2
      (⟨[(url, ⟨content, t1⟩)],
        [((url, content, getContentHash url content),
          ⟨⟨postProcess s, "gpt-4o-mini"⟩, t1⟩)]⟩ : SysState) url content
      (getContentHash url content) =
      (Except.ok ⟨postProcess s, "gpt-4o-mini"⟩,
        ⟨[(url, ⟨content, t1⟩)],
          [((url, content, getContentHash url content),
            ⟨⟨postProcess s, "gpt-4o-mini"⟩, t1⟩)]⟩, 0) := by
    simp only [genStep, lookupEntry, List.find?]
    simp [ht']
  have h2 : handleGET env dateStr t2
      (⟨[(url, ⟨content, t1⟩)],
        [((url, content, getContentHash url content),
          ⟨⟨postProcess s, "gpt-4o-mini"⟩, t1⟩)]⟩ : SysState) (some url) =
      ⟨⟨200, postProcess s, some "gpt-4o-mini"⟩,
        ⟨[(url, ⟨content, t1⟩)],
          [((url, content, getContentHash url content),
            ⟨⟨postProcess s, "gpt-4o-mini"⟩, t1⟩)]⟩, 0, 0⟩ := by
    simp only [handleGET, hjina2, hgen2]
  rw [h1]
  rw [show (⟨⟨200, postProcess s, some "gpt-4o-mini"⟩,
      ⟨[(url, ⟨content, t1⟩)],
        [((url, content, getContentHash url content),
          ⟨⟨postProcess s, "gpt-4o-mini"⟩, t1⟩)]⟩, 1, 1⟩ : HandleResult).state =
    (⟨[(url, ⟨content, t1⟩)],
      [((url, content, getContentHash url content),
        ⟨⟨postProcess s, "gpt-4o-mini"⟩, t1⟩)]⟩ : SysState) from rfl, h2]
  exact ⟨rfl, rfl, rfl, rfl, rfl, rfl, rfl⟩

/-- A fixed environment for witnesses: extraction always yields
`"page content"`, every completion resolves to a fixed valid RSS
document. -/
def wRss : String := "<rss version=\"2.0\"><channel><title>T</title></channel></rss>"

/-- The witness environment. -/
def wEnv : Env :=
  ⟨fun _ => Except.ok "page content", fun _ _ _ => CompletionOutcome.ok (some wRss)⟩

set_option maxRecDepth 100000 in
/-- Witness for C1 at a concrete environment. -/
theorem claim1_cache_determinism_witness :
    (handleGET wEnv "D" 0 emptyState (some "https://x")).jinaCalls = 1 ∧
    (handleGET wEnv "D" 0 emptyState (some "https://x")).openaiCalls = 1 ∧
    (handleGET wEnv "D" 0 emptyState (some "https://x")).response.status = 200 ∧
    (handleGET wEnv "D" 1 (handleGET wEnv "D" 0 emptyState (some "https://x")).state
      (some "https://x")).jinaCalls = 0 ∧
    (handleGET wEnv "D" 1 (handleGET wEnv "D" 0 emptyState (some "https://x")).state
      (some "https://x")).openaiCalls = 0 ∧
    (handleGET wEnv "D" 1 (handleGET wEnv "D" 0 emptyState (some "https://x")).state
      (some "https://x")).response.status = 200 ∧
    (handleGET wEnv "D" 1 (handleGET wEnv "D" 0 emptyState (some "https://x")).state
      (some "https://x")).response.body =
      (handleGET wEnv "D" 0 emptyState (some "https://x")).response.body :=
  claim1_cache_determinism wEnv "D" 0 1 "https://x" "page content" wRss
    rfl rfl (by decide) (by decide)

/-- A completion response that passes the structure validation but
whose `<guid>` text differs from its `<link>` text. -/
def badGuidXml : String :=
  "<rss version=\"2.0\"><channel><item><guid>https://e.com/a</guid><link>https://e.com/b</link></item></channel></rss>"

set_option maxRecDepth 400000 in
/-- Claim C4 counterexample: the generator accepts `badGuidXml` (its
validation only checks for `<rss` and `<channel>`) and returns it
verbatim as a successful result, although its `<guid>` text is not
equal to its `<link>` text — guid/link equality is requested in the
prompt but not enforced by any code path. -/
theorem claim4_guid_link_counterexample :
    runModels (fun _ => CompletionOutcome.ok (some badGuidXml)) models none =
      (Except.ok ⟨badGuidXml, "gpt-4o-mini"⟩, ["gpt-4o-mini"]) ∧
    guidTexts badGuidXml ≠ linkTexts badGuidXml := by
  constructor
  · rw [show models = ["gpt-4o-mini", "gpt-4o", "gpt-3.5-turbo"] from rfl,
      runModels_cons_ok _ "gpt-4o-mini" ["gpt-4o", "gpt-3.5-turbo"] none (some badGuidXml) rfl,
      show (some badGuidXml).getD "" = badGuidXml from rfl,
      show postProcess badGuidXml = badGuidXml from by decide, if_pos (by decide)]
  · decide

/-- Claim C4 amended: the generator returns the post-processed
completion text verbatim, so whenever that text passes validation and
itself satisfies guid/link equality, the successful result satisfies
it; the generator preserves the invariant but does not enforce it. -/
theorem claim4_guid_link_amended (complete : String → CompletionOutcome)
    (m : String) (rest : List String) (le : Option GenError) (s : String)
    (h : complete m = CompletionOutcome.ok (some s))
    (hv : validRSS (postProcess s) = true)
    (hg : guidTexts (postProcess s) = linkTexts (postProcess s)) :
    ∃ res : GenerationResult,
      runModels complete (m :: rest) le = (Except.ok res, [m]) ∧
      res.modelUsed = m ∧ guidTexts res.xml = linkTexts res.xml := by
  refine ⟨⟨postProcess s, m⟩, ?_, rfl, hg⟩
  rw [runModels_cons_ok complete m rest le (some s) h,
    show (some s).getD "" = s from rfl, if_pos hv]

/-- A valid completion response whose single item has `<guid>` text
equal to its `<link>` text. -/
def goodGuidXml : String :=
  "<rss version=\"2.0\"><channel><item><guid>https://e.com/a</guid><link>https://e.com/a</link></item></channel></rss>"

set_option maxRecDepth 400000 in
/-- Witness for the amended C4 at a concrete environment. -/
theorem claim4_guid_link_amended_witness :
    ∃ res : GenerationResult,
      runModels (fun _ => CompletionOutcome.ok (some goodGuidXml)) ["gpt-4o-mini"] none =
        (Except.ok res, ["gpt-4o-mini"]) ∧
      res.modelUsed = "gpt-4o-mini" ∧ guidTexts res.xml = linkTexts res.xml :=
  claim4_guid_link_amended (fun _ => CompletionOutcome.ok (some goodGuidXml))
    "gpt-4o-mini" [] none goodGuidXml rfl (by decide) (by decide)

/-- Claim C5 counterexample: the `:` separator of `getContentHash` is
ambiguous — the distinct pairs `("a:b", "c")` and `("a", "b:c")`
produce the same digest input `"a:b:c"` and hence the same
fingerprint. -/
theorem claim5_fingerprint_counterexample :
    getContentHash "a:b" "c" = getContentHash "a" "b:c" ∧
    ("a:b", "c") ≠ (("a", "b:c") : String × String) := by
  constructor
  · show sha256hex (hashInput "a:b" "c") = sha256hex (hashInput "a" "b:c")
    rw [show hashInput "a:b" "c" = hashInput "a" "b:c" from by decide]
  · decide

/-- Claim C5 amended: the fingerprint is a pure deterministic function
of the digest input `url ++ ":" ++ content`, and that input is
injective in the content for a fixed URL and in the URL for a fixed
content; but (per the counterexample) it is not jointly injective,
because the separator can migrate between the URL and the content. -/
theorem claim5_fingerprint_amended :
    (∀ u c : String, getContentHash u c = sha256hex (hashInput u c)) ∧
    (∀ u c1 c2 : String, c1 ≠ c2 → hashInput u c1 ≠ hashInput u c2) ∧
    (∀ u1 u2 c : String, u1 ≠ u2 → hashInput u1 c ≠ hashInput u2 c) := by
  refine ⟨fun u c => rfl, ?_, ?_⟩
  · intro u c1 c2 hne hcon
    apply hne
    have h2 := congrArg String.data hcon
    simp only [hashInput, String.data_append] at h2
    exact String.ext (List.append_cancel_left h2)
  · intro u1 u2 c hne hcon
    apply hne
    have h2 := congrArg String.data hcon
    simp only [hashInput, String.data_append] at h2
    exact String.ext (List.append_cancel_right (List.append_cancel_right h2))

/-- Witness for the amended C5 at concrete inputs. -/
theorem claim5_fingerprint_amended_witness :
    hashInput "u" "a" ≠ hashInput "u" "b" ∧ hashInput "u1" "c" ≠ hashInput "u2" "c" :=
  ⟨claim5_fingerprint_amended.2.1 "u" "a" "b" (by decide),
   claim5_fingerprint_amended.2.2 "u1" "u2" "c" (by decide)⟩

set_option maxRecDepth 40000 in
/-- Claim C6: `sanitizeXML` is idempotent on every input; in
particular `>Fish & Chips<` becomes `>Fish &amp; Chips<` and a second
application leaves that unchanged. -/
theorem claim6_sanitizer_idempotent :
    (∀ x : String, sanitizeXML (sanitizeXML x) = sanitizeXML x) ∧
    sanitizeXML ">Fish & Chips<" = ">Fish &amp; Chips<" ∧
    sanitizeXML ">Fish &amp; Chips<" = ">Fish &amp; Chips<" :=
  ⟨sanitizeXML_idem, by decide, by decide⟩

set_option maxRecDepth 40000 in
/-- Claim C7 counterexample: a literal `>` (resp. `<`) inside a text
node is not rewritten to `&gt;` (resp. `&lt;`): `sanitizeXML` returns
`<p>a > b</p>` and `<p>5 < 6</p>` unchanged, with no `&gt;`/`&lt;`
in the output. -/
theorem claim7_angle_counterexample :
    sanitizeXML "<p>a > b</p>" = "<p>a > b</p>" ∧
    includesStr (sanitizeXML "<p>a > b</p>") "&gt;" = false ∧
    sanitizeXML "<p>5 < 6</p>" = "<p>5 < 6</p>" ∧
    includesStr (sanitizeXML "<p>5 < 6</p>") "&lt;" = false := by decide

/-- Claim C7 amended: `sanitizeXML` never rewrites, inserts or removes
any `<` or `>` character: the subsequence of angle-bracket characters
of the output equals that of the input (tag punctuation is untouched,
and literal angle brackets in text are left as-is; the `escapeXMLText`
helper that would escape them is defined in the source but unused). -/
theorem claim7_angle_amended :
    ∀ s : String, (sanitizeXML s).data.filter isAngleB = s.data.filter isAngleB := fun s =>
  sanitizeList_filter_angle_bounded s.data.length s.data (Nat.le_refl _)

set_option maxRecDepth 40000 in
/-- Claim C8 counterexample: in a text node that already contains an
escaped `&amp;`, a raw `&` elsewhere in the same node is NOT escaped —
the whole node is returned unchanged. -/
theorem claim8_ampersand_counterexample :
    sanitizeXML ">x &amp; y & z<" = ">x &amp; y & z<" ∧
    sanitizeXML ">x &amp; y & z<" ≠ ">x &amp; y &amp; z<" := by decide

/-- Claim C8 amended: for a single text-node span `>run<`, if the
content contains `&amp;` anywhere the span is returned entirely
unchanged (so `&amp;` is never double-escaped, but raw `&` in such a
node stays raw); if it does not, the content is rewritten so that
every `&` of the result starts a recognized entity. -/
theorem claim8_ampersand_amended (run : List Char) (h1 : run ≠ [])
    (h2 : ∀ x ∈ run, noAngle x = true) :
    (hasSub ampEnt run = true →
      sanitizeXML (String.mk ('>' :: (run ++ ['<']))) = String.mk ('>' :: (run ++ ['<']))) ∧
    (hasSub ampEnt run = false →
      sanitizeXML (String.mk ('>' :: (run ++ ['<']))) =
        String.mk ('>' :: (processContent run ++ ['<'])) ∧
      allAmpsEscaped (processContent run) = true) := by
  have hbase : sanitizeList ('>' :: (run ++ ['<'])) =
      '>' :: (processContent run ++ ['<']) := by
    have h := sanitizeList_match run [] h1 h2
    rw [sanitizeList_nil] at h
    exact h
  have hout : sanitizeXML (String.mk ('>' :: (run ++ ['<']))) =
      String.mk ('>' :: (processContent run ++ ['<'])) := by
    show String.mk (sanitizeList ('>' :: (run ++ ['<']))) = _
    rw [hbase]
  constructor
  · intro hsub
    have hpc : processContent run = run := by
      unfold processContent
      by_cases hws : run.all Char.isWhitespace = true
      · rw [if_pos hws]
      · rw [if_neg hws, if_pos hsub]
    rw [hout, hpc]
  · intro hsub
    refine ⟨hout, ?_⟩
    unfold processContent
    by_cases hws : run.all Char.isWhitespace = true
    · rw [if_pos hws]
      refine allAmpsEscaped_of_no_amp ?_
      intro hmem
      have := List.all_eq_true.mp hws '&' hmem
      simp [Char.isWhitespace] at this
    · rw [if_neg hws, if_neg (by simp [hsub])]
      exact allAmpsEscaped_escapeAmps run

set_option maxRecDepth 40000 in
/-- Witness for the amended C8 at concrete spans. -/
theorem claim8_ampersand_amended_witness :
    sanitizeXML (String.mk ('>' :: ("x &amp; y & z".data ++ ['<']))) =
      String.mk ('>' :: ("x &amp; y & z".data ++ ['<'])) ∧
    (sanitizeXML (String.mk ('>' :: ("Fish & Chips".data ++ ['<']))) =
      String.mk ('>' :: (processContent "Fish & Chips".data ++ ['<'])) ∧
    allAmpsEscaped (processContent "Fish & Chips".data) = true) :=
  ⟨(claim8_ampersand_amended "x &amp; y & z".data (by decide) (by decide)).1 (by decide),
   (claim8_ampersand_amended "Fish & Chips".data (by decide) (by decide)).2 (by decide)⟩
